import Mathlib

/-!
Verification of the ConditionalSphericalGaussianSimulator
(src/experiments/datasets/conditional_spherical_simulator.py).

The simulator is a pure numerical model: a parametric family of
distributions on a latent_dim-sphere embedded in data_dim-dimensional
space, with Gaussian noise in the radial and off-manifold directions.
We embed its operations over the real numbers:

* numpy arrays become functions ℕ → ℝ (batches: ℕ → ℕ → ℝ),
  with dimensions passed explicitly;
* random draws (np.random.normal, uniform.rvs) are modelled by passing
  the underlying standard draws as explicit arguments;
* the x ** 0.5 norms become Real.sqrt (the bases are sums of squares);
* python assertions become Option-valued preconditions.
-/

noncomputable section

open Real Finset

open scoped Classical

/-- numpy-style floating mod: np.mod(x, y) = x - y * floor(x / y). -/
def rmod (x y : ℝ) : ℝ := x - y * (⌊x / y⌋ : ℤ)

/-- The Gaussian probability density scipy.stats.norm(loc=mu, scale=sigma).pdf(x). -/
def normalPdf (mu sigma x : ℝ) : ℝ :=
  Real.exp (-((x - mu) ^ 2) / (2 * sigma ^ 2)) / (sigma * Real.sqrt (2 * π))

/-- Configuration stored by ConditionalSphericalGaussianSimulator.__init__:
latent_dim, data_dim, min_width, max_width, epsilon.  The phase bounds are the
fixed constants _minphase = 0.5π and _maxphase = 1.5π. -/
structure SimCfg where
  latent_dim : ℕ
  data_dim : ℕ
  min_width : ℝ
  max_width : ℝ
  epsilon : ℝ

/-- __init__ with its assertions: data_dim > latent_dim, epsilon > 0,
0 < min_width < max_width ≤ 2π.  Returns none when an assertion fails. -/
def mkSimulator (latent_dim data_dim : ℕ) (min_width max_width epsilon : ℝ) :
    Option SimCfg :=
  if latent_dim < data_dim ∧ 0 < epsilon ∧ 0 < min_width ∧ min_width < max_width ∧
      max_width ≤ 2 * π then
    some ⟨latent_dim, data_dim, min_width, max_width, epsilon⟩
  else none

/-- _parse_parameters, width row: every latent dimension gets
min_width + (0.5 + 0.5 * parameters[0]) * (max_width - min_width). -/
def parse_width (cfg : SimCfg) (theta : ℝ × ℝ) : ℝ :=
  cfg.min_width + (0.5 + 0.5 * theta.1) * (cfg.max_width - cfg.min_width)

/-- _parse_parameters, phase column i: 0.5π for all rows except the last,
which gets _minphase + (0.5 + 0.5 * parameters[1]) * (_maxphase - _minphase). -/
def parse_phase (cfg : SimCfg) (theta : ℝ × ℝ) (i : ℕ) : ℝ :=
  if i = cfg.latent_dim - 1 then
    0.5 * π + (0.5 + 0.5 * theta.2) * (1.5 * π - 0.5 * π)
  else 0.5 * π

/-- _draw_z, angular part, one sample row: np.random.normal(phase, width)
modelled as phase + width * g with g the standard normal draw, then
reduced mod 2π. -/
def draw_z_phi (cfg : SimCfg) (theta : ℝ × ℝ) (g : ℕ → ℝ) (i : ℕ) : ℝ :=
  rmod (parse_phase cfg theta i + parse_width cfg theta * g i) (2 * π)

/-- _draw_z, noise part, one sample row: np.random.normal(0, epsilon)
modelled as epsilon * g with g the standard normal draw. -/
def draw_z_eps (cfg : SimCfg) (g : ℕ → ℝ) (t : ℕ) : ℝ := cfg.epsilon * g t

/-- Cumulative product of sines appearing in _transform_z_to_x: the cumprod of
sin(a) along a row, after sins[:, 0] is forced to 1, at position j equals
the product of sin(z_phi[l]) over l < j. -/
def sinProd (zphi : ℕ → ℝ) (j : ℕ) : ℝ := ∏ i in Finset.range j, Real.sin (zphi i)

/-- _transform_z_to_x on a single sample row (latent_dim = k,
data_dim - latent_dim = m).  Coordinates 0..k-1: r * (prefix sine product) *
cos(z_phi[j]); coordinate k: r * (full sine product) * cos(2π) (the value the
roll moves into the last slot); coordinates k+1..k+m-1: z_eps[1:] verbatim. -/
def transform_z_to_x (k m : ℕ) (zphi zeps : ℕ → ℝ) (j : ℕ) : ℝ :=
  if j < k then (1 + zeps 0) * (sinProd zphi j * Real.cos (zphi j))
  else if j = k then (1 + zeps 0) * (sinProd zphi k * Real.cos (2 * π))
  else if j < k + m then zeps (j - k)
  else 0

/-- The entry of the array a = concatenate((2π * ones, z_phi), axis=1) built by
_transform_z_to_x: column 0 is 2π, column j+1 is z_phi[:, j]. -/
def aEntry (k : ℕ) (zphi : ℕ → ℕ → ℝ) (i j : ℕ) : ℝ :=
  if j = 0 then 2 * π else zphi i (j - 1)

/-- np.roll(coss, -1) with no axis flattens the (n, k+1) array, rotates it left
by one and reshapes: the entry at row i, column j is the cosine of the flat
entry at index (i*(k+1)+j+1) mod (n*(k+1)). -/
def rolledCos (n k : ℕ) (zphi : ℕ → ℕ → ℝ) (i j : ℕ) : ℝ :=
  Real.cos (aEntry k zphi
    (((i * (k + 1) + j + 1) % (n * (k + 1))) / (k + 1))
    (((i * (k + 1) + j + 1) % (n * (k + 1))) % (k + 1)))

/-- _transform_z_to_x on a batch of n rows, with the axis-free np.roll
modelled faithfully across the flattened (n, k+1) cosine array. -/
def transform_z_to_x_batch (n k m : ℕ) (zphi zeps : ℕ → ℕ → ℝ) (i j : ℕ) : ℝ :=
  if j ≤ k then (1 + zeps i 0) * (sinProd (zphi i) j * rolledCos n k zphi i j)
  else if j < k + m then zeps i (j - k)
  else 0

/-- The norm np.sum(x[:, i : latent_dim + 1] ** 2) ** 0.5 used by
_transform_x_to_z: the Euclidean norm of coordinates i..k of x. -/
def normTail (k : ℕ) (x : ℕ → ℝ) (i : ℕ) : ℝ :=
  Real.sqrt (∑ j in Finset.Icc i k, x j ^ 2)

/-- The uncorrected angle arccos(x[i] / ||x[i..k]||) of _transform_x_to_z. -/
def zphiRaw (k : ℕ) (x : ℕ → ℝ) (i : ℕ) : ℝ :=
  Real.arccos (x i / normTail k x i)

/-- _transform_x_to_z, angular part: arccos(x[i] / ||x[i..k]||), with the last
angle replaced by 2π - arccos(...) when x[k] < 0. -/
def transform_x_to_z_phi (k : ℕ) (x : ℕ → ℝ) (i : ℕ) : ℝ :=
  if i = k - 1 then
    (if x k < 0 then 2 * π - zphiRaw k x i else zphiRaw k x i)
  else zphiRaw k x i

/-- _transform_x_to_z, noise part: z_eps[0] = ||x[0..k]|| - 1, the remaining
components copied from x[k+1:]. -/
def transform_x_to_z_eps (k : ℕ) (x : ℕ → ℝ) (t : ℕ) : ℝ :=
  if t = 0 then normTail k x 0 - 1 else x (k + t)

/-- distance_from_manifold: the Euclidean norm of the recovered noise vector
z_eps (m = data_dim - latent_dim components). -/
def distance_from_manifold (k m : ℕ) (x : ℕ → ℝ) : ℝ :=
  Real.sqrt (∑ t in Finset.range m, transform_x_to_z_eps k x t ^ 2)

/-- The canonicalisation at the head of _generate_equivalent_coordinates:
every angle is reduced mod 2π, then every column except the last is folded
into [0, π] (values above π are reflected to 2π - value). -/
def canon_z (k : ℕ) (zphi : ℕ → ℝ) (i : ℕ) : ℝ :=
  if i + 1 < k ∧ π < rmod (zphi i) (2 * π) then 2 * π - rmod (zphi i) (2 * π)
  else rmod (zphi i) (2 * π)

/-- _generate_equivalent_coordinates: the canonical angles, then for each
non-final dimension d the negation and the 2π-reflection of coordinate d, then
the -2π and +2π shifts of the final coordinate.  The precise flag is received
but the body never consults it. -/
def generate_equivalent_coordinates (k : ℕ) (zphi : ℕ → ℝ) (precise : Bool) :
    List (ℕ → ℝ) :=
  [canon_z k zphi]
    ++ (List.range (k - 1)).flatMap (fun d =>
        [Function.update (canon_z k zphi) d (-(canon_z k zphi d)),
         Function.update (canon_z k zphi) d (2 * π - canon_z k zphi d)])
    ++ [Function.update (canon_z k zphi) (k - 1) (-(2 * π) + canon_z k zphi (k - 1)),
        Function.update (canon_z k zphi) (k - 1) (2 * π + canon_z k zphi (k - 1))]

/-- The accumulated mixture p_sub of _log_density at angular coordinate i:
the sum, over the equivalent-coordinate images, of the Normal(phase_i,
width_i) density at the image's i-th coordinate. -/
def p_sub (cfg : SimCfg) (theta : ℝ × ℝ) (zphi : ℕ → ℝ) (precise : Bool)
    (i : ℕ) : ℝ :=
  ((generate_equivalent_coordinates cfg.latent_dim zphi precise).map
    (fun z => normalPdf (parse_phase cfg theta i) (parse_width cfg theta) (z i))).sum

/-- _log_density on one row: sum over angular coordinates of log p_sub, plus
sum over noise coordinates of log Normal(0, epsilon) at z_eps, plus the
log_det term latent_dim * |r| + sum of (latent_dim - 1 - i) * log|sin z_phi[i]|
with r = 1 + z_eps[0]. -/
def log_density_aux (cfg : SimCfg) (zphi zeps : ℕ → ℝ) (theta : ℝ × ℝ)
    (precise : Bool) : ℝ :=
  (∑ i in Finset.range cfg.latent_dim, Real.log (p_sub cfg theta zphi precise i))
    + (∑ t in Finset.range (cfg.data_dim - cfg.latent_dim),
        Real.log (normalPdf 0 cfg.epsilon (zeps t)))
    + ((cfg.latent_dim : ℝ) * |1 + zeps 0|
        + ∑ i in Finset.range cfg.latent_dim,
            ((cfg.latent_dim - 1 - i : ℕ) : ℝ) * Real.log |Real.sin (zphi i)|)

/-- log_density with the parameters provided: invert x to (z_phi, z_eps), then
evaluate _log_density. -/
def logDensityOf (cfg : SimCfg) (x : ℕ → ℝ) (theta : ℝ × ℝ) (precise : Bool) : ℝ :=
  log_density_aux cfg (transform_x_to_z_phi cfg.latent_dim x)
    (transform_x_to_z_eps cfg.latent_dim x) theta precise

/-- Public log_density: asserts parameters is not None, then computes. -/
def log_density_op (cfg : SimCfg) (x : ℕ → ℝ) (params : Option (ℝ × ℝ))
    (precise : Bool) : Option ℝ :=
  match params with
  | none => none
  | some theta => some (logDensityOf cfg x theta precise)

/-- Public sample: asserts parameters is not None, then draws latent state
(from the supplied standard-normal draws) and applies the forward transform. -/
def sample_op (cfg : SimCfg) (n : ℕ) (params : Option (ℝ × ℝ))
    (gphi geps : ℕ → ℕ → ℝ) : Option (ℕ → ℕ → ℝ) :=
  match params with
  | none => none
  | some theta =>
      some (fun i => transform_z_to_x cfg.latent_dim (cfg.data_dim - cfg.latent_dim)
        (draw_z_phi cfg theta (gphi i)) (draw_z_eps cfg (geps i)))

/-- sample_from_prior: uniform.rvs(loc=-1, scale=2) modelled as -1 + 2 * u with
u the underlying uniform [0, 1) draw. -/
def sample_from_prior (n : ℕ) (u : ℕ → ℕ → ℝ) (i j : ℕ) : ℝ :=
  -1 + 2 * u i j

/-- uniform.logpdf(x, loc=-1, scale=2), valued in EReal so that the -inf
returned outside the support is represented exactly: log(1/2) on [-1, 1]
(endpoints included, as in scipy), ⊥ outside. -/
def uniformLogpdf (x : ℝ) : EReal :=
  if -1 ≤ x ∧ x ≤ 1 then ((Real.log 0.5 : ℝ) : EReal) else ⊥

/-- evaluate_log_prior on a single parameter vector: the sum of the component
log-densities of the uniform prior on [-1, 1]^2. -/
def evaluate_log_prior (theta : ℝ × ℝ) : EReal :=
  uniformLogpdf theta.1 + uniformLogpdf theta.2

/-- Modelled from the spec (claim C2's reading of the density): the same
log-density with the angular mixture written as the explicit sum over the
symmetric images and the Jacobian sine-sum running only over the non-final
angular coordinates (the last coordinate carries weight 0 and is dropped). -/
def specLogDensity (cfg : SimCfg) (x : ℕ → ℝ) (theta : ℝ × ℝ)
    (precise : Bool) : ℝ :=
  (∑ i in Finset.range cfg.latent_dim,
      Real.log (p_sub cfg theta (transform_x_to_z_phi cfg.latent_dim x) precise i))
    + (∑ t in Finset.range (cfg.data_dim - cfg.latent_dim),
        Real.log (normalPdf 0 cfg.epsilon (transform_x_to_z_eps cfg.latent_dim x t)))
    + ((cfg.latent_dim : ℝ) * |1 + transform_x_to_z_eps cfg.latent_dim x 0|
        + ∑ i in Finset.range (cfg.latent_dim - 1),
            ((cfg.latent_dim - 1 - i : ℕ) : ℝ)
              * Real.log |Real.sin (transform_x_to_z_phi cfg.latent_dim x i)|)

lemma flatMap_pairs_length {α : Type} (m : ℕ) (f g : ℕ → α) :
    ((List.range m).flatMap (fun d => [f d, g d])).length = 2 * m := by
  induction m with
  | zero => simp
  | succ m ih =>
      rw [List.range_succ]
      simp only [List.flatMap_append, List.length_append, ih]
      simp
      ring

lemma flatMap_pairs_map_sum (m : ℕ) (f g : ℕ → (ℕ → ℝ)) (h : (ℕ → ℝ) → ℝ) :
    (((List.range m).flatMap (fun d => [f d, g d])).map h).sum
      = ∑ d in Finset.range m, (h (f d) + h (g d)) := by
  induction m with
  | zero => simp
  | succ m ih =>
      rw [List.range_succ, Finset.sum_range_succ]
      simp only [List.flatMap_append, List.map_append, List.sum_append, ih]
      simp

lemma rolledCos_lt (n k : ℕ) (zphi : ℕ → ℕ → ℝ) (i j : ℕ) (hi : i < n)
    (hj : j < k) : rolledCos n k zphi i j = Real.cos (zphi i j) := by
  unfold rolledCos
  have hk1 : 0 < k + 1 := Nat.succ_pos k
  have h1 : i * (k + 1) + j + 1 < n * (k + 1) := by
    have h3 : i * (k + 1) + (k + 1) = (i + 1) * (k + 1) := by ring
    have h4 : (i + 1) * (k + 1) ≤ n * (k + 1) :=
      mul_le_mul_right' (Nat.succ_le_of_lt hi) (k + 1)
    omega
  rw [Nat.mod_eq_of_lt h1]
  have h5 : i * (k + 1) + j + 1 = (j + 1) + i * (k + 1) := by ring
  rw [h5, Nat.add_mul_div_right _ _ hk1, Nat.add_mul_mod_self_right,
    Nat.div_eq_of_lt (by omega), Nat.mod_eq_of_lt (by omega)]
  unfold aEntry
  simp

lemma rolledCos_last (n k : ℕ) (zphi : ℕ → ℕ → ℝ) (i : ℕ) (hi : i < n) :
    rolledCos n k zphi i k = Real.cos (2 * π) := by
  unfold rolledCos
  have hk1 : 0 < k + 1 := Nat.succ_pos k
  have ht : i * (k + 1) + k + 1 = (i + 1) * (k + 1) := by ring
  rw [ht]
  by_cases hin : i + 1 = n
  · rw [hin, Nat.mod_self]
    simp [aEntry]
  · have hlt : (i + 1) * (k + 1) < n * (k + 1) :=
      (mul_lt_mul_right hk1).mpr (by omega)
    rw [Nat.mod_eq_of_lt hlt, Nat.mul_div_cancel _ hk1, Nat.mul_mod_left]
    simp [aEntry]

lemma transform_batch_row (n k m : ℕ) (zphi zeps : ℕ → ℕ → ℝ) (i j : ℕ)
    (hi : i < n) :
    transform_z_to_x_batch n k m zphi zeps i j
      = transform_z_to_x k m (zphi i) (zeps i) j := by
  unfold transform_z_to_x_batch transform_z_to_x
  by_cases hjk : j < k
  · rw [if_pos (le_of_lt hjk), if_pos hjk, rolledCos_lt n k zphi i j hi hjk]
  · by_cases hjeq : j = k
    · subst hjeq
      rw [if_pos (le_refl j), if_neg (lt_irrefl j), if_pos rfl,
        rolledCos_last n j zphi i hi]
    · have hnle : ¬j ≤ k := by omega
      rw [if_neg hnle, if_neg hjk, if_neg hjeq]

/-- C4: the batched forward embedding has no cross-sample dependency: row i of
the batched _transform_z_to_x equals the single-row embedding of row i of the
input (which is itself the one-row batch), despite the axis-free np.roll whose
spill across rows always carries cos(2π) = 1 into the closing slot. -/
theorem C4_batch_rows_independent (n k m : ℕ) (zphi zeps : ℕ → ℕ → ℝ)
    (i j : ℕ) (hi : i < n) :
    transform_z_to_x_batch n k m zphi zeps i j
        = transform_z_to_x k m (zphi i) (zeps i) j ∧
    transform_z_to_x_batch 1 k m (fun _ => zphi i) (fun _ => zeps i) 0 j
        = transform_z_to_x k m (zphi i) (zeps i) j :=
  ⟨transform_batch_row n k m zphi zeps i j hi,
   transform_batch_row 1 k m (fun _ => zphi i) (fun _ => zeps i) 0 j Nat.one_pos⟩

/-- Witness for C4 at a concrete two-row batch, second row, first column. -/
theorem C4_batch_rows_independent_witness :
    transform_z_to_x_batch 2 1 1 (fun _ _ => 0) (fun _ _ => 0) 1 0
        = transform_z_to_x 1 1 (fun _ => 0) (fun _ => 0) 0 ∧
    transform_z_to_x_batch 1 1 1 (fun _ => fun _ => 0) (fun _ => fun _ => 0) 0 0
        = transform_z_to_x 1 1 (fun _ => 0) (fun _ => 0) 0 :=
  C4_batch_rows_independent 2 1 1 (fun _ _ => 0) (fun _ _ => 0) 1 0 (by norm_num)

/-- C3: the equivalent-coordinate enumeration is a deterministic list of
exactly 2 * latent_dim + 1 candidate angle vectors, and the angular mixture
p_sub at coordinate i is the Normal(phase_i, width_i) density at the
canonicalized angles plus its value at each of the 2(latent_dim - 1) + 2
symmetric images: negation and 2π-reflection of each non-final coordinate and
the -2π and +2π shifts of the final coordinate. -/
theorem C3_symmetric_image_mixture (cfg : SimCfg) (theta : ℝ × ℝ)
    (zphi : ℕ → ℝ) (pr : Bool) (i : ℕ) (hk : 1 ≤ cfg.latent_dim) :
    (generate_equivalent_coordinates cfg.latent_dim zphi pr).length
        = 2 * cfg.latent_dim + 1 ∧
    p_sub cfg theta zphi pr i
        = normalPdf (parse_phase cfg theta i) (parse_width cfg theta)
            (canon_z cfg.latent_dim zphi i)
          + (∑ d in Finset.range (cfg.latent_dim - 1),
              (normalPdf (parse_phase cfg theta i) (parse_width cfg theta)
                  (Function.update (canon_z cfg.latent_dim zphi) d
                    (-(canon_z cfg.latent_dim zphi d)) i)
                + normalPdf (parse_phase cfg theta i) (parse_width cfg theta)
                    (Function.update (canon_z cfg.latent_dim zphi) d
                      (2 * π - canon_z cfg.latent_dim zphi d) i)))
          + normalPdf (parse_phase cfg theta i) (parse_width cfg theta)
              (Function.update (canon_z cfg.latent_dim zphi) (cfg.latent_dim - 1)
                (-(2 * π) + canon_z cfg.latent_dim zphi (cfg.latent_dim - 1)) i)
          + normalPdf (parse_phase cfg theta i) (parse_width cfg theta)
              (Function.update (canon_z cfg.latent_dim zphi) (cfg.latent_dim - 1)
                (2 * π + canon_z cfg.latent_dim zphi (cfg.latent_dim - 1)) i) := by
  constructor
  · unfold generate_equivalent_coordinates
    rw [List.length_append, List.length_append, flatMap_pairs_length]
    simp
    omega
  · unfold p_sub generate_equivalent_coordinates
    rw [List.map_append, List.map_append, List.sum_append, List.sum_append,
      flatMap_pairs_map_sum]
    simp
    ring

/-- Witness for C3 at latent_dim = 2 with concrete inputs. -/
theorem C3_symmetric_image_mixture_witness :
    (generate_equivalent_coordinates 2 (fun _ => 0) false).length = 2 * 2 + 1 ∧
    p_sub ⟨2, 3, 0.1 * π, 0.4 * π, 1⟩ (0, 0) (fun _ => 0) false 0
        = normalPdf (parse_phase ⟨2, 3, 0.1 * π, 0.4 * π, 1⟩ (0, 0) 0)
            (parse_width ⟨2, 3, 0.1 * π, 0.4 * π, 1⟩ (0, 0)) (canon_z 2 (fun _ => 0) 0)
          + (∑ d in Finset.range (2 - 1),
              (normalPdf (parse_phase ⟨2, 3, 0.1 * π, 0.4 * π, 1⟩ (0, 0) 0)
                  (parse_width ⟨2, 3, 0.1 * π, 0.4 * π, 1⟩ (0, 0))
                  (Function.update (canon_z 2 (fun _ => 0)) d
                    (-(canon_z 2 (fun _ => 0) d)) 0)
                + normalPdf (parse_phase ⟨2, 3, 0.1 * π, 0.4 * π, 1⟩ (0, 0) 0)
                    (parse_width ⟨2, 3, 0.1 * π, 0.4 * π, 1⟩ (0, 0))
                    (Function.update (canon_z 2 (fun _ => 0)) d
                      (2 * π - canon_z 2 (fun _ => 0) d) 0)))
          + normalPdf (parse_phase ⟨2, 3, 0.1 * π, 0.4 * π, 1⟩ (0, 0) 0)
              (parse_width ⟨2, 3, 0.1 * π, 0.4 * π, 1⟩ (0, 0))
              (Function.update (canon_z 2 (fun _ => 0)) (2 - 1)
                (-(2 * π) + canon_z 2 (fun _ => 0) (2 - 1)) 0)
          + normalPdf (parse_phase ⟨2, 3, 0.1 * π, 0.4 * π, 1⟩ (0, 0) 0)
              (parse_width ⟨2, 3, 0.1 * π, 0.4 * π, 1⟩ (0, 0))
              (Function.update (canon_z 2 (fun _ => 0)) (2 - 1)
                (2 * π + canon_z 2 (fun _ => 0) (2 - 1)) 0) :=
  C3_symmetric_image_mixture ⟨2, 3, 0.1 * π, 0.4 * π, 1⟩ (0, 0) (fun _ => 0)
    false 0 (by norm_num)

/-- C2: the log-density of x equals the sum over angular coordinates of the
log of the symmetrized mixture, plus the sum over noise coordinates of the
log Normal(0, epsilon) densities of z_eps, plus the Jacobian correction
latent_dim * |r| (r = 1 + z_eps[0]) plus the descending-weight sine-log sum in
which the last angular coordinate carries weight 0, hence contributes
nothing (its term can be dropped). -/
theorem C2_log_density_formula (cfg : SimCfg) (x : ℕ → ℝ) (theta : ℝ × ℝ)
    (pr : Bool) (hk : 1 ≤ cfg.latent_dim) :
    logDensityOf cfg x theta pr = specLogDensity cfg x theta pr := by
  unfold logDensityOf log_density_aux specLogDensity
  have hsplit : cfg.latent_dim = (cfg.latent_dim - 1) + 1 :=
    (Nat.succ_pred_eq_of_pos hk).symm
  have hsum :
      (∑ i in Finset.range cfg.latent_dim,
          ((cfg.latent_dim - 1 - i : ℕ) : ℝ)
            * Real.log |Real.sin (transform_x_to_z_phi cfg.latent_dim x i)|)
        = ∑ i in Finset.range (cfg.latent_dim - 1),
            ((cfg.latent_dim - 1 - i : ℕ) : ℝ)
              * Real.log |Real.sin (transform_x_to_z_phi cfg.latent_dim x i)| := by
    rw [hsplit, Finset.sum_range_succ]
    have hz : ((cfg.latent_dim - 1) + 1 - 1 - (cfg.latent_dim - 1) : ℕ) = 0 := by
      omega
    rw [hz]
    push_cast
    rw [← hsplit]
    ring
  rw [hsum]

/-- Witness for C2 at a concrete simulator and input. -/
theorem C2_log_density_formula_witness :
    logDensityOf ⟨2, 3, 0.1 * π, 0.4 * π, 1⟩ (fun _ => 1) (0, 0) false
      = specLogDensity ⟨2, 3, 0.1 * π, 0.4 * π, 1⟩ (fun _ => 1) (0, 0) false :=
  C2_log_density_formula ⟨2, 3, 0.1 * π, 0.4 * π, 1⟩ (fun _ => 1) (0, 0) false
    (by norm_num)

lemma normTail_nonneg (k : ℕ) (x : ℕ → ℝ) (i : ℕ) : 0 ≤ normTail k x i :=
  Real.sqrt_nonneg _

lemma normTail_sq (k : ℕ) (x : ℕ → ℝ) (i : ℕ) :
    normTail k x i ^ 2 = ∑ j in Finset.Icc i k, x j ^ 2 :=
  Real.sq_sqrt (Finset.sum_nonneg fun j _ => sq_nonneg (x j))

lemma sum_Icc_split (f : ℕ → ℝ) (i k : ℕ) (h : i ≤ k) :
    ∑ j in Finset.Icc i k, f j = f i + ∑ j in Finset.Icc (i + 1) k, f j := by
  rw [Finset.Icc_eq_cons_Ioc h, Finset.sum_cons, ← Nat.Icc_succ_left]

lemma normTail_sq_succ (k : ℕ) (x : ℕ → ℝ) (i : ℕ) (h : i ≤ k) :
    normTail k x i ^ 2 = x i ^ 2 + normTail k x (i + 1) ^ 2 := by
  rw [normTail_sq, normTail_sq, sum_Icc_split (fun j => x j ^ 2) i k h]

lemma normTail_last (k : ℕ) (x : ℕ → ℝ) : normTail k x k = |x k| := by
  unfold normTail
  rw [Finset.Icc_self, Finset.sum_singleton, Real.sqrt_sq_eq_abs]

lemma abs_le_normTail (k : ℕ) (x : ℕ → ℝ) (i : ℕ) (h : i ≤ k) :
    |x i| ≤ normTail k x i := by
  have h1 : x i ^ 2 ≤ normTail k x i ^ 2 := by
    rw [normTail_sq]
    exact Finset.single_le_sum (fun j _ => sq_nonneg (x j))
      (Finset.mem_Icc.mpr ⟨le_refl i, h⟩)
  calc |x i| = Real.sqrt (x i ^ 2) := (Real.sqrt_sq_eq_abs _).symm
    _ ≤ Real.sqrt (normTail k x i ^ 2) := Real.sqrt_le_sqrt h1
    _ = normTail k x i := Real.sqrt_sq (normTail_nonneg k x i)

lemma ratio_bounds (k : ℕ) (x : ℕ → ℝ) (i : ℕ) (h : i ≤ k)
    (hpos : 0 < normTail k x i) :
    -1 ≤ x i / normTail k x i ∧ x i / normTail k x i ≤ 1 := by
  have h1 : |x i / normTail k x i| ≤ 1 := by
    rw [abs_div, abs_of_pos hpos]
    exact (div_le_one hpos).mpr (abs_le_normTail k x i h)
  exact abs_le.mp h1

lemma cos_zphiRaw (k : ℕ) (x : ℕ → ℝ) (i : ℕ) (h : i ≤ k)
    (hpos : 0 < normTail k x i) :
    Real.cos (zphiRaw k x i) = x i / normTail k x i := by
  unfold zphiRaw
  exact Real.cos_arccos (ratio_bounds k x i h hpos).1 (ratio_bounds k x i h hpos).2

lemma sin_zphiRaw (k : ℕ) (x : ℕ → ℝ) (i : ℕ) (hik : i ≤ k)
    (hpos : 0 < normTail k x i) :
    Real.sin (zphiRaw k x i) = normTail k x (i + 1) / normTail k x i := by
  unfold zphiRaw
  rw [Real.sin_arccos]
  have hne : normTail k x i ≠ 0 := ne_of_gt hpos
  have hsq := normTail_sq_succ k x i hik
  have h1 : 1 - (x i / normTail k x i) ^ 2
      = (normTail k x (i + 1) / normTail k x i) ^ 2 := by
    field_simp
    nlinarith [hsq]
  rw [h1, Real.sqrt_sq (div_nonneg (normTail_nonneg k x (i + 1)) (le_of_lt hpos))]

lemma normTail_zero_tail (k : ℕ) (x : ℕ → ℝ) (i j : ℕ) (hij : i ≤ j)
    (hjk : j ≤ k) (h0 : normTail k x i = 0) : x j = 0 := by
  have hsum : ∑ t in Finset.Icc i k, x t ^ 2 = 0 := by
    have h1 := normTail_sq k x i
    rw [h0] at h1
    simpa using h1.symm
  have hall := (Finset.sum_eq_zero_iff_of_nonneg
    (fun t _ => sq_nonneg (x t))).mp hsum
  have h2 := hall j (Finset.mem_Icc.mpr ⟨hij, hjk⟩)
  exact (pow_eq_zero_iff two_ne_zero).mp h2

lemma normTail_zero_mono (k : ℕ) (x : ℕ → ℝ) (i j : ℕ) (hij : i ≤ j)
    (h0 : normTail k x i = 0) : normTail k x j = 0 := by
  unfold normTail
  rw [Finset.sum_eq_zero, Real.sqrt_zero]
  intro t ht
  rw [Finset.mem_Icc] at ht
  have h1 := normTail_zero_tail k x i t (le_trans hij ht.1) ht.2 h0
  rw [h1]
  ring

lemma prefix_prod_eq (k : ℕ) (x : ℕ → ℝ) (h0 : 0 < normTail k x 0) :
    ∀ j, j < k →
      normTail k x 0 * sinProd (transform_x_to_z_phi k x) j = normTail k x j := by
  intro j
  induction j with
  | zero =>
      intro _
      unfold sinProd
      rw [Finset.prod_range_zero, mul_one]
  | succ j ih =>
      intro hj
      have hjk : j < k := Nat.lt_of_succ_lt hj
      have hne : j ≠ k - 1 := by omega
      unfold sinProd
      rw [Finset.prod_range_succ, ← mul_assoc]
      have hPj := ih hjk
      unfold sinProd at hPj
      rw [hPj]
      have hzj : transform_x_to_z_phi k x j = zphiRaw k x j := by
        unfold transform_x_to_z_phi
        rw [if_neg hne]
      rw [hzj]
      by_cases hNj : 0 < normTail k x j
      · rw [sin_zphiRaw k x j (le_of_lt hjk) hNj]
        field_simp
      · have hNj0 : normTail k x j = 0 :=
          le_antisymm (le_of_not_lt hNj) (normTail_nonneg k x j)
        rw [hNj0, zero_mul]
        exact (normTail_zero_mono k x j (j + 1) (Nat.le_succ j) hNj0).symm

lemma cos_transform_x_to_z_phi (k : ℕ) (x : ℕ → ℝ) (i : ℕ) :
    Real.cos (transform_x_to_z_phi k x i) = Real.cos (zphiRaw k x i) := by
  unfold transform_x_to_z_phi
  by_cases hi : i = k - 1
  · rw [if_pos hi]
    by_cases hx : x k < 0
    · rw [if_pos hx, Real.cos_sub, Real.cos_two_pi, Real.sin_two_pi]
      ring
    · rw [if_neg hx]
  · rw [if_neg hi]

/-- C1: for every observation x whose first latent_dim + 1 coordinates have
positive Euclidean norm (equivalently, every x produced by sample), applying
the inverse map _transform_x_to_z and then the forward map _transform_z_to_x
reproduces x exactly, and the recovered angles lie in the canonical range
([0, π] for the non-final angles, [0, 2π) for the final angle) rather than
equalling the original unwrapped values. -/
theorem C1_round_trip (k m : ℕ) (x : ℕ → ℝ) (j : ℕ) (hk : 1 ≤ k)
    (hx : 0 < ∑ t in Finset.range (k + 1), x t ^ 2) :
    (j + 1 < k → transform_x_to_z_phi k x j ∈ Set.Icc 0 π) ∧
    transform_x_to_z_phi k x (k - 1) ∈ Set.Ico 0 (2 * π) ∧
    (j < k + m →
      transform_z_to_x k m (transform_x_to_z_phi k x) (transform_x_to_z_eps k x) j
        = x j) := by
  obtain ⟨K, rfl⟩ : ∃ K, k = K + 1 := ⟨k - 1, by omega⟩
  have h0 : 0 < normTail (K + 1) x 0 := by
    unfold normTail
    apply Real.sqrt_pos.mpr
    have hIcc : Finset.Icc 0 (K + 1) = Finset.range (K + 1 + 1) := by
      rw [Finset.range_eq_Ico, Nat.Ico_succ_right]
    rw [hIcc]
    exact hx
  have hr : 1 + transform_x_to_z_eps (K + 1) x 0 = normTail (K + 1) x 0 := by
    unfold transform_x_to_z_eps
    rw [if_pos rfl]
    ring
  refine ⟨?_, ?_, ?_⟩
  · intro hj1
    have hzj : transform_x_to_z_phi (K + 1) x j = zphiRaw (K + 1) x j := by
      unfold transform_x_to_z_phi
      rw [if_neg (by omega : ¬j = K + 1 - 1)]
    rw [hzj]
    unfold zphiRaw
    exact ⟨Real.arccos_nonneg _, Real.arccos_le_pi _⟩
  · unfold transform_x_to_z_phi
    rw [if_pos rfl]
    simp only [Nat.add_sub_cancel]
    by_cases hxk : x (K + 1) < 0
    · rw [if_pos hxk]
      have hsqK := normTail_sq_succ (K + 1) x K (Nat.le_succ K)
      have hNK1 : 0 < normTail (K + 1) x (K + 1) := by
        rw [normTail_last]
        exact abs_pos.mpr (ne_of_lt hxk)
      have hNK : 0 < normTail (K + 1) x K := by
        nlinarith [normTail_nonneg (K + 1) x K, sq_nonneg (x K)]
      constructor
      · have h1 : zphiRaw (K + 1) x K ≤ π := by
          unfold zphiRaw
          exact Real.arccos_le_pi _
        linarith [Real.pi_pos]
      · have hlt : x K / normTail (K + 1) x K < 1 := by
          rw [div_lt_one hNK]
          have hxle : x K ≤ normTail (K + 1) x K :=
            le_trans (le_abs_self _) (abs_le_normTail (K + 1) x K (Nat.le_succ K))
          rcases lt_or_eq_of_le hxle with h | h
          · exact h
          · exfalso
            rw [← h] at hsqK
            nlinarith [hNK1]
        have hposa : 0 < zphiRaw (K + 1) x K := by
          unfold zphiRaw
          exact Real.arccos_pos.mpr hlt
        linarith
    · rw [if_neg hxk]
      have h1 : 0 ≤ zphiRaw (K + 1) x K := by
        unfold zphiRaw
        exact Real.arccos_nonneg _
      have h2 : zphiRaw (K + 1) x K ≤ π := by
        unfold zphiRaw
        exact Real.arccos_le_pi _
      exact ⟨h1, by linarith [Real.pi_pos]⟩
  · intro hjkm
    by_cases hjlt : j < K + 1
    · unfold transform_z_to_x
      rw [if_pos hjlt, hr, ← mul_assoc, prefix_prod_eq (K + 1) x h0 j hjlt,
        cos_transform_x_to_z_phi]
      by_cases hNj : 0 < normTail (K + 1) x j
      · rw [cos_zphiRaw (K + 1) x j (le_of_lt hjlt) hNj]
        have hne := ne_of_gt hNj
        field_simp
      · have hNj0 := le_antisymm (le_of_not_lt hNj) (normTail_nonneg (K + 1) x j)
        rw [hNj0, zero_mul]
        exact (normTail_zero_tail (K + 1) x j j (le_refl j) (by omega) hNj0).symm
    · by_cases hjeq : j = K + 1
      · subst hjeq
        unfold transform_z_to_x
        rw [if_neg hjlt, if_pos rfl, Real.cos_two_pi, mul_one, hr]
        unfold sinProd
        rw [Finset.prod_range_succ, ← mul_assoc]
        have hPK := prefix_prod_eq (K + 1) x h0 K (Nat.lt_succ_self K)
        unfold sinProd at hPK
        rw [hPK]
        have hKeq : transform_x_to_z_phi (K + 1) x K =
            if x (K + 1) < 0 then 2 * π - zphiRaw (K + 1) x K
            else zphiRaw (K + 1) x K := by
          unfold transform_x_to_z_phi
          rw [if_pos (by omega : K = K + 1 - 1)]
        rw [hKeq]
        by_cases hxk : x (K + 1) < 0
        · rw [if_pos hxk]
          have hsqK := normTail_sq_succ (K + 1) x K (Nat.le_succ K)
          have hNK1 : 0 < normTail (K + 1) x (K + 1) := by
            rw [normTail_last]
            exact abs_pos.mpr (ne_of_lt hxk)
          have hNK : 0 < normTail (K + 1) x K := by
            nlinarith [normTail_nonneg (K + 1) x K, sq_nonneg (x K)]
          rw [Real.sin_sub, Real.sin_two_pi, Real.cos_two_pi,
            sin_zphiRaw (K + 1) x K (Nat.le_succ K) hNK, normTail_last,
            abs_of_neg hxk]
          have hne := ne_of_gt hNK
          field_simp
        · rw [if_neg hxk]
          by_cases hNK : 0 < normTail (K + 1) x K
          · rw [sin_zphiRaw (K + 1) x K (Nat.le_succ K) hNK, normTail_last,
              abs_of_nonneg (le_of_not_lt hxk)]
            have hne := ne_of_gt hNK
            field_simp
          · have hNK0 := le_antisymm (le_of_not_lt hNK)
              (normTail_nonneg (K + 1) x K)
            rw [hNK0, zero_mul]
            exact (normTail_zero_tail (K + 1) x K (K + 1) (Nat.le_succ K)
              (le_refl _) hNK0).symm
      · unfold transform_z_to_x transform_x_to_z_eps
        rw [if_neg hjlt, if_neg hjeq, if_pos hjkm,
          if_neg (by omega : ¬j - (K + 1) = 0)]
        congr 1
        omega

/-- Witness for C1 at latent_dim = 1, data_dim = 2 and x = (1, 0): the
forward image of the inverse reproduces the first coordinate. -/
theorem C1_round_trip_witness :
    transform_z_to_x 1 1
        (transform_x_to_z_phi 1 (fun t => if t = 0 then 1 else 0))
        (transform_x_to_z_eps 1 (fun t => if t = 0 then 1 else 0)) 0
      = (fun t : ℕ => if t = 0 then (1 : ℝ) else 0) 0 :=
  (C1_round_trip 1 1 (fun t => if t = 0 then 1 else 0) 0 (by norm_num)
    (by norm_num [Finset.sum_range_succ])).2.2 (by norm_num)

/-- C5 counterexample: the scenario of the claim is impossible, because
__init__ asserts epsilon > 0.0, so constructing the simulator with
latent_dim = 2, data_dim = 3 and epsilon = 0.0 fails the precondition. -/
theorem C5_epsilon_zero_rejected :
    mkSimulator 2 3 (0.1 * π) (0.4 * π) 0 = none := by
  unfold mkSimulator
  rw [if_neg]
  rintro ⟨-, h, -⟩
  exact lt_irrefl 0 h

lemma dist2_zero_noise (z zeps : ℕ → ℝ) (hze : ∀ t, zeps t = 0) :
    distance_from_manifold 2 1 (transform_z_to_x 2 1 z zeps) = 0 := by
  unfold distance_from_manifold
  rw [Finset.sum_range_one]
  unfold transform_x_to_z_eps
  rw [if_pos rfl]
  have hp2 : sinProd z 2 = Real.sin (z 0) * Real.sin (z 1) := by
    unfold sinProd
    rw [show (2 : ℕ) = 1 + 1 from rfl, Finset.prod_range_succ,
      Finset.prod_range_one]
  have hx0 : transform_z_to_x 2 1 z zeps 0 = Real.cos (z 0) := by
    unfold transform_z_to_x
    norm_num [hze, sinProd]
  have hx1 : transform_z_to_x 2 1 z zeps 1 = Real.sin (z 0) * Real.cos (z 1) := by
    unfold transform_z_to_x
    norm_num [hze, sinProd]
  have hx2 : transform_z_to_x 2 1 z zeps 2 = Real.sin (z 0) * Real.sin (z 1) := by
    unfold transform_z_to_x
    norm_num [hze, hp2]
  have hN : normTail 2 (transform_z_to_x 2 1 z zeps) 0 = 1 := by
    unfold normTail
    have hIcc : Finset.Icc (0 : ℕ) 2 = {0, 1, 2} := by decide
    rw [hIcc, Finset.sum_insert (by decide), Finset.sum_insert (by decide),
      Finset.sum_singleton, hx0, hx1, hx2]
    have h0 := Real.sin_sq_add_cos_sq (z 0)
    have h1 := Real.sin_sq_add_cos_sq (z 1)
    have hs : Real.cos (z 0) ^ 2 + ((Real.sin (z 0) * Real.cos (z 1)) ^ 2
        + (Real.sin (z 0) * Real.sin (z 1)) ^ 2) = 1 := by nlinarith
    rw [hs, Real.sqrt_one]
  rw [hN]
  norm_num

/-- C5 amended: constructing with epsilon = 0.0 is rejected by the
constructor's epsilon > 0 assertion (see the counterexample); for a simulator
with latent_dim = 2, data_dim = 3 and any admissible epsilon, at
theta = (0, 0), a sample whose noise draws are all zero lies exactly on the
unit sphere: distance_from_manifold returns exactly 0. -/
theorem C5_zero_noise_sample_on_manifold (minw maxw eps : ℝ) (cfg : SimCfg)
    (hcfg : mkSimulator 2 3 minw maxw eps = some cfg)
    (gphi : ℕ → ℕ → ℝ) (xs : ℕ → ℕ → ℝ)
    (hs : sample_op cfg 1 (some (0, 0)) gphi (fun _ _ => 0) = some xs) :
    distance_from_manifold 2 1 (xs 0) = 0 := by
  unfold mkSimulator at hcfg
  split at hcfg
  · injection hcfg with hcfg
    subst hcfg
    unfold sample_op at hs
    injection hs with hs
    subst hs
    exact dist2_zero_noise _ _ (fun t => by unfold draw_z_eps; simp)
  · exact Option.noConfusion hcfg

set_option maxHeartbeats 1000000 in
/-- Witness for C5 at epsilon = 1 with all draws zero. -/
theorem C5_zero_noise_sample_on_manifold_witness :
    mkSimulator 2 3 (0.1 * π) (0.4 * π) 1 = some ⟨2, 3, 0.1 * π, 0.4 * π, 1⟩ ∧
    sample_op ⟨2, 3, 0.1 * π, 0.4 * π, 1⟩ 1 (some (0, 0)) (fun _ _ => 0)
        (fun _ _ => 0)
      = some (fun _ => transform_z_to_x 2 (3 - 2)
          (draw_z_phi ⟨2, 3, 0.1 * π, 0.4 * π, 1⟩ (0, 0) (fun _ => 0))
          (draw_z_eps ⟨2, 3, 0.1 * π, 0.4 * π, 1⟩ (fun _ => 0))) ∧
    distance_from_manifold 2 1
        ((fun _ : ℕ => transform_z_to_x 2 (3 - 2)
          (draw_z_phi ⟨2, 3, 0.1 * π, 0.4 * π, 1⟩ (0, 0) (fun _ => 0))
          (draw_z_eps ⟨2, 3, 0.1 * π, 0.4 * π, 1⟩ (fun _ => 0))) 0) = 0 := by
  have hcond : (2 : ℕ) < 3 ∧ (0 : ℝ) < 1 ∧ 0 < 0.1 * π ∧ 0.1 * π < 0.4 * π ∧
      0.4 * π ≤ 2 * π :=
    ⟨by norm_num, by norm_num, by positivity, by nlinarith [Real.pi_pos],
      by nlinarith [Real.pi_pos]⟩
  have h1 : mkSimulator 2 3 (0.1 * π) (0.4 * π) 1
      = some ⟨2, 3, 0.1 * π, 0.4 * π, 1⟩ := by
    unfold mkSimulator
    rw [if_pos hcond]
  have h2 : sample_op ⟨2, 3, 0.1 * π, 0.4 * π, 1⟩ 1 (some (0, 0)) (fun _ _ => 0)
      (fun _ _ => 0)
      = some (fun _ => transform_z_to_x 2 (3 - 2)
          (draw_z_phi ⟨2, 3, 0.1 * π, 0.4 * π, 1⟩ (0, 0) (fun _ => 0))
          (draw_z_eps ⟨2, 3, 0.1 * π, 0.4 * π, 1⟩ (fun _ => 0))) := rfl
  have h3 := C5_zero_noise_sample_on_manifold (0.1 * π) (0.4 * π) 1 _ h1
    (fun _ _ => 0) _ h2
  exact ⟨h1, h2, h3⟩

/-- C6: for every parameter vector, evaluate_log_prior is the sum of the two
uniform [-1,1] component log-densities: 2 * log(0.5) = -log 4 when both
components lie in [-1, 1], and -infinity (bottom) whenever either component
lies outside [-1, 1]. -/
theorem C6_evaluate_log_prior_uniform_box (theta : ℝ × ℝ) :
    (2 * Real.log 0.5 : ℝ) = -Real.log 4 ∧
    ((-1 ≤ theta.1 ∧ theta.1 ≤ 1) ∧ (-1 ≤ theta.2 ∧ theta.2 ≤ 1) →
      evaluate_log_prior theta = ((2 * Real.log 0.5 : ℝ) : EReal)) ∧
    (¬((-1 ≤ theta.1 ∧ theta.1 ≤ 1) ∧ (-1 ≤ theta.2 ∧ theta.2 ≤ 1)) →
      evaluate_log_prior theta = ⊥) := by
  refine ⟨?_, ?_, ?_⟩
  · have h1 : ((0.5 : ℝ) ^ (2 : ℕ)) = (4 : ℝ)⁻¹ := by norm_num
    have h2 : Real.log ((0.5 : ℝ) ^ (2 : ℕ)) = (2 : ℝ) * Real.log 0.5 := by
      rw [Real.log_pow]
      norm_num
    have h3 : Real.log ((4 : ℝ)⁻¹) = -Real.log 4 := Real.log_inv 4
    rw [h1] at h2
    rw [← h2, h3]
  · rintro ⟨h1, h2⟩
    unfold evaluate_log_prior uniformLogpdf
    rw [if_pos h1, if_pos h2, ← EReal.coe_add]
    exact congrArg _ (by ring)
  · intro h
    unfold evaluate_log_prior uniformLogpdf
    by_cases h1 : -1 ≤ theta.1 ∧ theta.1 ≤ 1
    · have h2 : ¬(-1 ≤ theta.2 ∧ theta.2 ≤ 1) := fun h2 => h ⟨h1, h2⟩
      rw [if_pos h1, if_neg h2, EReal.add_bot]
    · rw [if_neg h1, EReal.bot_add]

/-- Witness for C6 at the concrete parameter vectors (0, 0) and (2, 0). -/
theorem C6_evaluate_log_prior_uniform_box_witness :
    evaluate_log_prior (0, 0) = ((2 * Real.log 0.5 : ℝ) : EReal) ∧
    evaluate_log_prior (2, 0) = ⊥ :=
  ⟨(C6_evaluate_log_prior_uniform_box (0, 0)).2.1 (by norm_num),
   (C6_evaluate_log_prior_uniform_box (2, 0)).2.2 (by norm_num)⟩

/-- C7: every value produced by sample_from_prior lies in [-1, 1]: the draw at
any position is -1 + 2u with u the underlying uniform draw in [0, 1). -/
theorem C7_sample_from_prior_in_box (n : ℕ) (u : ℕ → ℕ → ℝ) (i j : ℕ)
    (hu0 : 0 ≤ u i j) (hu1 : u i j < 1) :
    -1 ≤ sample_from_prior n u i j ∧ sample_from_prior n u i j ≤ 1 := by
  unfold sample_from_prior
  constructor <;> nlinarith

/-- Witness for C7 at n = 1 and the constant-zero uniform draw. -/
theorem C7_sample_from_prior_in_box_witness :
    -1 ≤ sample_from_prior 1 (fun _ _ => 0) 0 0 ∧
      sample_from_prior 1 (fun _ _ => 0) 0 0 ≤ 1 :=
  C7_sample_from_prior_in_box 1 (fun _ _ => 0) 0 0 (by norm_num) (by norm_num)

/-- C8: for parameters in [-1,1]^2, every latent dimension gets the same width
min_width + (0.5 + 0.5 theta0)(max_width - min_width); every dimension except
the last gets phase π/2; the last dimension gets phase
π/2 + (0.5 + 0.5 theta1)(3π/2 - π/2). -/
theorem C8_parse_parameters_formula (cfg : SimCfg) (theta : ℝ × ℝ) (i : ℕ)
    (hth : (-1 ≤ theta.1 ∧ theta.1 ≤ 1) ∧ (-1 ≤ theta.2 ∧ theta.2 ≤ 1))
    (hi : i < cfg.latent_dim) :
    parse_width cfg theta
        = cfg.min_width + (0.5 + 0.5 * theta.1) * (cfg.max_width - cfg.min_width) ∧
    (i ≠ cfg.latent_dim - 1 → parse_phase cfg theta i = π / 2) ∧
    parse_phase cfg theta (cfg.latent_dim - 1)
        = π / 2 + (0.5 + 0.5 * theta.2) * (3 * π / 2 - π / 2) := by
  refine ⟨rfl, ?_, ?_⟩
  · intro hne
    unfold parse_phase
    rw [if_neg hne]
    ring
  · unfold parse_phase
    rw [if_pos rfl]
    ring

/-- Witness for C8 at a concrete simulator, theta = (0, 0) and i = 0. -/
theorem C8_parse_parameters_formula_witness :
    parse_width ⟨2, 3, 0.1 * π, 0.4 * π, 1⟩ (0, 0)
        = 0.1 * π + (0.5 + 0.5 * (0 : ℝ)) * (0.4 * π - 0.1 * π) ∧
    ((0 : ℕ) ≠ 2 - 1 → parse_phase ⟨2, 3, 0.1 * π, 0.4 * π, 1⟩ (0, 0) 0 = π / 2) ∧
    parse_phase ⟨2, 3, 0.1 * π, 0.4 * π, 1⟩ (0, 0) (2 - 1)
        = π / 2 + (0.5 + 0.5 * (0 : ℝ)) * (3 * π / 2 - π / 2) :=
  C8_parse_parameters_formula ⟨2, 3, 0.1 * π, 0.4 * π, 1⟩ (0, 0) 0
    (by norm_num) (by norm_num)

/-- C9: log_density and sample fail (return none) precisely when the
parameters argument is omitted; with parameters supplied they produce a
value. -/
theorem C9_parameters_required (cfg : SimCfg) (x : ℕ → ℝ) (pr : Bool)
    (p : Option (ℝ × ℝ)) (n : ℕ) (gphi geps : ℕ → ℕ → ℝ) :
    (log_density_op cfg x p pr = none ↔ p = none) ∧
    (sample_op cfg n p gphi geps = none ↔ p = none) := by
  cases p <;> simp [log_density_op, sample_op]

/-- C10: the precise flag is threaded into the symmetric-image generator but
never consulted, so it does not affect the returned log-density. -/
theorem C10_precise_flag_no_effect (cfg : SimCfg) (x : ℕ → ℝ)
    (p : Option (ℝ × ℝ)) :
    log_density_op cfg x p true = log_density_op cfg x p false := by
  cases p <;> rfl

end
